import Mathlib

/-!
Verification of the `histogram` crate of brayniac/rustcommon.

This file gives a shallow embedding, in Lean, of the histogram engine:
the hybrid linear/logarithmic bucket layout (`Config`), the exclusive and
atomic counter stores, the sparse (compact) store, the generic percentile
walk, and the sliding-window engine, together with theorems about them.

Conventions of the embedding:
* machine integers (`u8`, `u64`, `usize`, `u128`) are modelled as `Nat`;
  where the source relies on wrapping arithmetic we write an explicit
  `% 2 ^ 64` (resp. `% 2 ^ 8` for `u8` sums);
* `Instant` and `Duration` from the (out of tree) `clocksource::precise`
  module are a `u64` nanosecond counter in the source; they are modelled
  as `Nat` nanoseconds;
* the atomic store and the atomic sliding window are modelled as their
  single-threaded (sequential, CAS-always-wins) executions;
* `f64` percentile arithmetic is modelled as exact arithmetic over `ℚ`
  (`as u128` casts of negative values saturate to `0`, hence `Int.toNat`);
* fallible Rust functions returning `Result` become `Except`; functions
  that can also abort on an `assert!` return a `PanicOr` value.
-/

/-- Recoverable runtime errors of the crate (`errors.rs`, not under `src/`;
the two variants are taken from their uses in `standard.rs` and the spec). -/
inductive Error where
  | empty
  | valueOutOfRange
deriving DecidableEq

/-- Construction-time errors (`errors.rs`, not under `src/`; the two variant
names are taken from their uses in `standard.rs` / `atomic.rs`). -/
inductive BuildError where
  | maxPowerTooHigh
  | maxPowerTooLow
deriving DecidableEq

/-- Outcome of running code that may abort on a failed `assert!` rather than
return: `panicked` models the abort, `value` a normal return. -/
inductive PanicOr (α : Type) where
  | panicked
  | value (a : α)
deriving DecidableEq

/-- A read-only view of one bucket (`bucket.rs`): its occurrence count and
its inclusive value range. -/
structure Bucket where
  count : Nat
  lower : Nat
  upper : Nat
deriving DecidableEq

/-- Modelled from the spec: the bucket layout parameters `{a, b, n}` of
`config.rs`, which is not under `src/`. `a` is the log2 of the linear bucket
width, `b` the log2 of the subdivisions per power-of-two band, `n` the log2
of one past the maximum representable value. -/
structure Config where
  a : Nat
  b : Nat
  n : Nat
deriving DecidableEq

namespace Config

/-- Modelled from the spec: `linear_bins = 2^b` (spec section 3). -/
def linear_bins (c : Config) : Nat := 2 ^ c.b

/-- Modelled from the spec: `total_bins = linear_bins + (n - a - b) * 2^b`
(spec section 3, `log_bins = (n - a - b) * 2^b`). -/
def total_bins (c : Config) : Nat := c.linear_bins + (c.n - c.a - c.b) * 2 ^ c.b

/-- Modelled from the spec: `Config::new` of the missing `config.rs` fails
with an invalid-config error when `n > 64` or `a + b ≥ n` (spec section 4.1);
the two error variants are the ones `Builder::new` in `standard.rs` uses for
the same two conditions. -/
def new (a b n : Nat) : Except BuildError Config :=
  if 64 < n then .error .maxPowerTooHigh
  else if n ≤ a + b then .error .maxPowerTooLow
  else .ok { a := a, b := b, n := n }

/-- Modelled from the spec: the raw value-to-index map (spec section 4.1).
Below the threshold `2^(a+b)` the index is `value >> a` (written here as
division by `2^a`); otherwise, with `e` the position of the highest set bit
of `value` (`Nat.log2`), the index is
`linear_bins + (e - (a+b)) * 2^b + ((value - 2^e) >> (e - b))`. -/
def value_index (c : Config) (v : Nat) : Nat :=
  if v < 2 ^ (c.a + c.b) then
    v / 2 ^ c.a
  else
    c.linear_bins + (Nat.log2 v - (c.a + c.b)) * 2 ^ c.b
      + (v - 2 ^ Nat.log2 v) / 2 ^ (Nat.log2 v - c.b)

/-- Modelled from the spec: `value_to_index(value)` returns
`ValueOutOfRange` when `value ≥ 2^n` and the raw index otherwise
(spec section 4.1; for `n = 64` no `u64` value can trigger the error). -/
def value_to_index (c : Config) (v : Nat) : Except Error Nat :=
  if 2 ^ c.n ≤ v then .error .valueOutOfRange else .ok (c.value_index v)

/-- Modelled from the spec: the lower bound of a bucket, inverting
`value_index` (spec section 4.1). Linear region: `index * 2^a`. Logarithmic
region: with `g = index - linear_bins`, `band = g / 2^b`, `offset = g % 2^b`
and `e = a + b + band`, the bound is `2^e + offset * 2^(e-b)`. -/
def index_to_lower_bound (c : Config) (i : Nat) : Nat :=
  if i < c.linear_bins then
    i * 2 ^ c.a
  else
    2 ^ (c.a + c.b + (i - c.linear_bins) / 2 ^ c.b)
      + (i - c.linear_bins) % 2 ^ c.b
        * 2 ^ (c.a + c.b + (i - c.linear_bins) / 2 ^ c.b - c.b)

/-- Modelled from the spec: the upper bound of a bucket: the lower bound
plus the bucket width minus one, clamped to `2^n - 1` (spec section 4.1;
in `ℕ` the clamp only matters for the last bucket, where it is an
equality — in the `u64` source it avoids overflow when `n = 64`). -/
def index_to_upper_bound (c : Config) (i : Nat) : Nat :=
  if i < c.linear_bins then
    min (i * 2 ^ c.a + (2 ^ c.a - 1)) (2 ^ c.n - 1)
  else
    min (2 ^ (c.a + c.b + (i - c.linear_bins) / 2 ^ c.b)
          + (i - c.linear_bins) % 2 ^ c.b
            * 2 ^ (c.a + c.b + (i - c.linear_bins) / 2 ^ c.b - c.b)
          + (2 ^ (c.a + c.b + (i - c.linear_bins) / 2 ^ c.b - c.b) - 1))
      (2 ^ c.n - 1)

end Config

/-- The exclusive histogram (`standard.rs`): a fixed array of plain `u64`
counters plus its layout. -/
structure Histogram where
  config : Config
  buckets : List Nat
deriving DecidableEq

/-- The shared histogram (`atomic.rs`), modelled sequentially: an array of
atomic `u64` counters plus its layout. -/
structure AtomicHistogram where
  config : Config
  buckets : List Nat
deriving DecidableEq

namespace Histogram

/-- Constructor `Histogram::new` of `standard.rs`: validate via
`Config::new`, then allocate `total_bins` zeroed counters. -/
def new (a b n : Nat) : Except BuildError Histogram :=
  (Config.new a b n).map fun c => { config := c, buckets := List.replicate c.total_bins 0 }

/-- Trait method `get_count` of `standard.rs` (`self.buckets[index]`).
The source panics on an out-of-range index; the `Nat`-total model returns
`0` there. Such a read is reachable in-crate: the `percentiles` fast path
(`lib.rs`, line 105) can ask for index `total_bins` — for example
`percentiles(&[100.0, 100.0])` on a store whose last bucket is non-zero —
a panic this model does not capture, so every theorem below constrains the
indices it reads to lie below `total_bins`. -/
def get_count (h : Histogram) (i : Nat) : Nat := h.buckets.getD i 0

/-- Trait method `total_count` of `standard.rs`: the sum of all counters
(widened to `u128` in the source; `Nat` needs no widening). -/
def total_count (h : Histogram) : Nat := h.buckets.sum

/-- Method `add` of `standard.rs`: map the value to its index (propagating
`ValueOutOfRange`, in which case the store is returned untouched), then
wrapping-add the count into that bucket. -/
def add (h : Histogram) (value count : Nat) : Histogram × Option Error :=
  match h.config.value_to_index value with
  | .error e => (h, some e)
  | .ok idx =>
    ({ h with buckets := h.buckets.set idx ((h.buckets.getD idx 0 + count) % 2 ^ 64) }, none)

/-- Method `increment` of `standard.rs`: `add` with a count of one. -/
def increment (h : Histogram) (value : Nat) : Histogram × Option Error :=
  h.add value 1

end Histogram

namespace AtomicHistogram

/-- Constructor `Histogram::new` of `atomic.rs`: validate via `Config::new`,
then allocate `total_bins` zeroed atomic counters. -/
def new (a b n : Nat) : Except BuildError AtomicHistogram :=
  (Config.new a b n).map fun c => { config := c, buckets := List.replicate c.total_bins 0 }

/-- Trait method `get_count` of `atomic.rs` (a relaxed atomic load of
`self.buckets[index]`). As for the exclusive store, an out-of-range index
panics in the source and is reachable through the `percentiles` fast path
at index `total_bins`; the model returns `0` there, and the theorems below
keep their reads below `total_bins`. -/
def get_count (h : AtomicHistogram) (i : Nat) : Nat := h.buckets.getD i 0

/-- Trait method `total_count` of `atomic.rs`. -/
def total_count (h : AtomicHistogram) : Nat := h.buckets.sum

/-- Method `add` of `atomic.rs`: map the value to its index (propagating
`ValueOutOfRange` with the store untouched), then a relaxed `fetch_add`
(wrapping) into that bucket. -/
def add (h : AtomicHistogram) (value count : Nat) : AtomicHistogram × Option Error :=
  match h.config.value_to_index value with
  | .error e => (h, some e)
  | .ok idx =>
    ({ h with buckets := h.buckets.set idx ((h.buckets.getD idx 0 + count) % 2 ^ 64) }, none)

/-- Method `increment` of `atomic.rs`. -/
def increment (h : AtomicHistogram) (value : Nat) : AtomicHistogram × Option Error :=
  h.add value 1

end AtomicHistogram

/-- Builder `Builder::new` of `standard.rs` (the one in `atomic.rs` is
textually identical): reject `n > 64`, then reject `a + b >= n`. The sum
`a + b` is a `u8` addition in the source, so for `a + b ≥ 256` it wraps
(release profile; with debug overflow checks it would abort instead — in
neither case is a `BuildError` produced); the wrap is written here as
`% 2 ^ 8`. -/
structure Builder where
  a : Nat
  b : Nat
  n : Nat
deriving DecidableEq

/-- Constructor `Builder::new` of `standard.rs` / `atomic.rs`; see the
comment on `Builder` for the `u8` wrapping sum. -/
def Builder.new (a b n : Nat) : Except BuildError Builder :=
  if 64 < n then .error .maxPowerTooHigh
  else if n ≤ (a + b) % 2 ^ 8 then .error .maxPowerTooLow
  else .ok { a := a, b := b, n := n }

/-- Method `build` of `standard.rs`: re-validate through `Config::new` and
allocate the histogram. -/
def Builder.build (bd : Builder) : Except BuildError Histogram :=
  Histogram.new bd.a bd.b bd.n

/-- Outcome of the inner bucket walk of `percentiles` (`lib.rs`):
`exhausted` is the `break 'outer` taken when the bucket indices run out
(carrying the `max_idx` seen so far), `found` records the bucket index that
satisfied the current percentile together with the updated `have` and
`max_idx`. -/
inductive InnerResult where
  | exhausted (max_idx : Nat)
  | found (idx hav max_idx : Nat)
deriving DecidableEq

/-- Round half to even on the integer grid: the integer nearest to `r`,
with a tie going to the even neighbour — the tie-breaking rule of IEEE 754
round-to-nearest. -/
def rhe (r : ℚ) : ℤ :=
  if r - ⌊r⌋ < 1 / 2 then ⌊r⌋
  else if 1 / 2 < r - ⌊r⌋ then ⌊r⌋ + 1
  else if Even ⌊r⌋ then ⌊r⌋ else ⌊r⌋ + 1

/-- The exponent of the binary64 quantum for a positive magnitude `q`: a
finite double in the binade of `q` is a multiple of `2 ^ f64scale q`
(mantissa 52 fraction bits, subnormals bottoming out at `2 ^ (-1074)`). -/
def f64scale (q : ℚ) : ℤ := max (Int.log 2 q - 52) (-1074)

/-- Round a non-negative rational to the nearest binary64 value
(round-to-nearest, ties to even): scale by the quantum, round half to
even, scale back. There is no overflow-to-infinity clamp: every quantity
the histogram code feeds through this (totals below `2^128`, percentiles
at most `100`) stays far below the binary64 maximum. -/
def roundF64pos (q : ℚ) : ℚ := (rhe (q / 2 ^ f64scale q) : ℚ) * 2 ^ f64scale q

/-- Round a rational to the nearest binary64 value, negative arguments by
sign symmetry (IEEE round-to-nearest is odd). -/
def roundF64 (q : ℚ) : ℚ := if q < 0 then -roundF64pos (-q) else roundF64pos q

/-- Needed cumulative count for a percentile (`lib.rs`, line 100):
`(percentile / 100.0 * total as f64).ceil() as u128`. Binary64 arithmetic
is modelled faithfully: the `u128` to `f64` cast of `total` and the two
IEEE operations (division by `100.0`, multiplication) each produce the
round-to-nearest-ties-to-even `roundF64` of their exact rational value;
`f64::ceil` of the finite product is its exact integer ceiling (always
representable); the `as u128` cast saturates negative values to zero,
hence `Int.toNat`. In particular the cast of a total above `2^53` can
round it upward, and a subnormal quotient `p / 100.0` can underflow —
both effects are captured. -/
def neededCount (p : ℚ) (total : Nat) : Nat :=
  (⌈roundF64 (roundF64 (p / 100) * roundF64 (total : ℚ))⌉).toNat

/-- Trait method `get_bucket` of `lib.rs`, generic over a store given by its
layout and its per-index counter read. -/
def getBucket (cfg : Config) (count : Nat → Nat) (i : Nat) : Bucket :=
  { count := count i
  , lower := cfg.index_to_lower_bound i
  , upper := cfg.index_to_upper_bound i }

/-- The `'inner` loop of `percentiles` (`lib.rs`, lines 111-140): walk
bucket indices upward from `cur`, accumulating counts into `hav` and
tracking the highest index with a non-zero count in `mx`, until the
accumulated count reaches `needed` or the indices run out. -/
def innerWalk (cfg : Config) (count : Nat → Nat) (needed hav cur mx : Nat) : InnerResult :=
  if cfg.total_bins ≤ cur then .exhausted mx
  else if needed ≤ hav + count cur then
    .found cur (hav + count cur) (if 0 < count cur then cur else mx)
  else
    innerWalk cfg count needed (hav + count cur) (cur + 1) (if 0 < count cur then cur else mx)
termination_by cfg.total_bins - cur
decreasing_by simp_wf; omega

/-- The `'outer` loop of `percentiles` (`lib.rs`, lines 92-141): for each
sorted percentile in turn, either the accumulated count already suffices
(push the bucket at the current walk position) or run the inner walk;
`break 'outer` returns the not-yet-served percentiles as the middle
component, for the caller's best-effort fill. -/
def outerWalk (cfg : Config) (count : Nat → Nat) (total : Nat) :
    List ℚ → Nat → Nat → Nat → List (ℚ × Bucket) →
      List (ℚ × Bucket) × List ℚ × Nat
  | [], _hav, _cur, mx, acc => (acc, [], mx)
  | p :: ps, hav, cur, mx, acc =>
    if neededCount p total ≤ hav then
      outerWalk cfg count total ps hav cur mx (acc ++ [(p, getBucket cfg count cur)])
    else
      match innerWalk cfg count (neededCount p total) hav cur mx with
      | .exhausted mx' => (acc, p :: ps, mx')
      | .found f hav' mx' =>
        outerWalk cfg count total ps hav' (f + 1) mx' (acc ++ [(p, getBucket cfg count f)])

/-- The generic `percentiles` of `lib.rs` (lines 70-151), over a store
given by its layout, its per-index counter read, and the value its
`total_count()` returned: report `Empty` for a zero total, sort the
requested percentiles ascending (`sort_by(partial_cmp)`), run the walk, and
fill any percentiles left over by an exhausted walk with the bucket at the
highest non-zero index observed. -/
def percentilesRun (cfg : Config) (count : Nat → Nat) (total : Nat) (ps : List ℚ) :
    Except Error (List (ℚ × Bucket)) :=
  if total = 0 then .error .empty
  else
    match outerWalk cfg count total (ps.mergeSort fun x y => decide (x ≤ y)) 0 0 0 [] with
    | (acc, leftover, mx) => .ok (acc ++ leftover.map fun p => (p, getBucket cfg count mx))

/-- Method `percentiles` for the exclusive store (`impl Histograms for T`
instantiated at `standard.rs`). -/
def Histogram.percentiles (h : Histogram) (ps : List ℚ) : Except Error (List (ℚ × Bucket)) :=
  percentilesRun h.config h.get_count h.total_count ps

/-- Method `percentiles` for the shared store (`impl Histograms for T`
instantiated at `atomic.rs`). -/
def AtomicHistogram.percentiles (h : AtomicHistogram) (ps : List ℚ) :
    Except Error (List (ℚ × Bucket)) :=
  percentilesRun h.config h.get_count h.total_count ps

/-- The sparse store (`compact.rs`): layout parameters plus the parallel
`index`/`count` vectors of the non-zero buckets. -/
structure CompactHistogram where
  a : Nat
  b : Nat
  n : Nat
  index : List Nat
  count : List Nat
deriving DecidableEq

/-- The `(i, c)` pairs pushed by the `From` conversions of `compact.rs`:
`buckets.iter().enumerate().filter(|(_i, c)| c != 0)`, with `k` the index of
the first listed bucket. -/
def sparsePairs : Nat → List Nat → List (Nat × Nat)
  | _, [] => []
  | k, c :: rest => if c ≠ 0 then (k, c) :: sparsePairs (k + 1) rest else sparsePairs (k + 1) rest

/-- Conversion `From<&crate::Histogram>` of `compact.rs` (lines 42-66). -/
def CompactHistogram.of_histogram (h : Histogram) : CompactHistogram :=
  { a := h.config.a
  , b := h.config.b
  , n := h.config.n
  , index := (sparsePairs 0 h.buckets).map Prod.fst
  , count := (sparsePairs 0 h.buckets).map Prod.snd }

/-- Conversion `From<&crate::atomic::Histogram>` of `compact.rs`
(lines 68-93), identical up to the relaxed loads. -/
def CompactHistogram.of_atomic (h : AtomicHistogram) : CompactHistogram :=
  { a := h.config.a
  , b := h.config.b
  , n := h.config.n
  , index := (sparsePairs 0 h.buckets).map Prod.fst
  , count := (sparsePairs 0 h.buckets).map Prod.snd }

/-- Trait method `get_count` of `compact.rs` (lines 33-39):
`index.binary_search(&i)` — modelled by its contract on the sorted `index`
vector as the position of the matching element — then
`count.get(pos).unwrap_or(0)`, and `0` when the search misses. -/
def CompactHistogram.get_count (h : CompactHistogram) (i : Nat) : Nat :=
  match h.index.findIdx? fun j => j == i with
  | some pos => h.count.getD pos 0
  | none => 0

/-- Trait method `total_count` of `compact.rs`. -/
def CompactHistogram.total_count (h : CompactHistogram) : Nat := h.count.sum

/-- Shared state of both sliding-window variants
(`sliding_window/mod.rs`): resolution, span and the tick origin in
nanoseconds (`Instant`/`Duration` are `u64` nanosecond counters in the
clocksource crate), plus the ring length `num_slices`. -/
structure Common where
  resolution : Nat
  span : Nat
  started : Nat
  tick_origin : Nat
  num_slices : Nat
deriving DecidableEq

namespace Common

/-- Trait method `max_idx` of `sliding_window/mod.rs`:
`num_slices - 1`. -/
def max_idx (c : Common) : Nat := c.num_slices - 1

/-- Trait method `range` of `sliding_window/mod.rs` (lines 112-133): whole
ticks in the interval (zero if `end < start`, clamped to `max_idx` if the
interval reaches the span), whole ticks from the origin to `start`, both
reduced modulo `num_slices`. -/
def range (c : Common) (start_t end_t : Nat) : Nat × Nat :=
  let interval_ticks :=
    if end_t < start_t then 0
    else if start_t + c.span ≤ end_t then c.max_idx
    else (end_t - start_t) / c.resolution
  let offset_ticks :=
    if start_t ≤ c.tick_origin then 0
    else (start_t - c.tick_origin) / c.resolution
  let s := offset_ticks % c.num_slices
  (s, (s + interval_ticks) % c.num_slices)

/-- Constructor `Common::new` of `sliding_window/mod.rs` (lines 157-192).
The two `assert!` calls on the resolution (at most `u64::MAX` nanoseconds,
at least 1000 nanoseconds) abort rather than return, modelled by
`PanicOr.panicked`; then the layout is validated through `Config::new`, the
span is `resolution * slices` (a `u64` product, wrapping), the ring gets
one extra slot (`num_slices = slices + 1`) and the tick origin is `now`
minus the span. The ambient `UnixInstant::now()` / `Instant::now()` reads
are the `now_unix` / `now` parameters. -/
def new (a b n resolution slices now_unix now : Nat) : PanicOr (Except BuildError Common) :=
  if 2 ^ 64 - 1 < resolution then .panicked
  else if resolution < 1000 then .panicked
  else
    match Config.new a b n with
    | .error e => .value (.error e)
    | .ok _ =>
      .value (.ok
        { resolution := resolution
        , span := resolution * slices % 2 ^ 64
        , started := now_unix
        , tick_origin := now - resolution * slices % 2 ^ 64
        , num_slices := slices + 1 })

end Common

/-- The exclusive sliding-window histogram (`sliding_window/standard.rs`):
the shared `Common`, the next tick boundary, the ring of snapshot counter
arrays, and the free-running live histogram. -/
structure SWHistogram where
  common : Common
  tick_at : Nat
  snapshots : List (List Nat)
  live : Histogram
deriving DecidableEq

namespace SWHistogram

/-- Constructor `Histogram::new` of `sliding_window/standard.rs`
(lines 42-64): `Common::new` runs first (so its asserts fire before any
counter allocation), then the live histogram and `num_slices` zeroed
snapshots are allocated and `tick_at` starts one resolution after the
origin. -/
def new (a b n resolution slices now_unix now : Nat) :
    PanicOr (Except BuildError SWHistogram) :=
  match Common.new a b n resolution slices now_unix now with
  | .panicked => .panicked
  | .value (.error e) => .value (.error e)
  | .value (.ok common) =>
    match Histogram.new a b n with
    | .error e => .value (.error e)
    | .ok live =>
      .value (.ok
        { common := common
        , tick_at := common.tick_origin + common.resolution
        , snapshots :=
            List.replicate common.num_slices (List.replicate live.config.total_bins 0)
        , live := live })

/-- Method `add_at` of `sliding_window/standard.rs` (lines 93-134): fast
path records into the live histogram when `instant < tick_at`; otherwise
advance `tick_at` by one resolution, copy the live counters into the ring
slot `range(end - duration, end).0` where `end = tick_at - resolution` and
`duration = resolution * snapshots.len()`, and then record into the live
histogram. -/
def add_at (h : SWHistogram) (instant value count : Nat) : SWHistogram × Option Error :=
  if instant < h.tick_at then
    let r := h.live.add value count
    ({ h with live := r.1 }, r.2)
  else
    let duration := h.common.resolution * h.snapshots.length
    let end_t := h.tick_at - h.common.resolution
    let start_t := end_t - duration
    let s := (h.common.range start_t end_t).1
    let r := h.live.add value count
    ({ h with
        tick_at := h.tick_at + h.common.resolution
      , snapshots := h.snapshots.set s h.live.buckets
      , live := r.1 }, r.2)

end SWHistogram

/-- The shared sliding-window histogram (`sliding_window/atomic.rs`),
modelled sequentially (every compare-and-swap on `tick_at` succeeds). -/
structure ASWHistogram where
  common : Common
  tick_at : Nat
  snapshots : List (List Nat)
  live : AtomicHistogram
deriving DecidableEq

namespace ASWHistogram

/-- Constructor `Histogram::new` of `sliding_window/atomic.rs`
(lines 45-67), mirror of the exclusive one. -/
def new (a b n resolution slices now_unix now : Nat) :
    PanicOr (Except BuildError ASWHistogram) :=
  match Common.new a b n resolution slices now_unix now with
  | .panicked => .panicked
  | .value (.error e) => .value (.error e)
  | .value (.ok common) =>
    match AtomicHistogram.new a b n with
    | .error e => .value (.error e)
    | .ok live =>
      .value (.ok
        { common := common
        , tick_at := common.tick_origin + common.resolution
        , snapshots :=
            List.replicate common.num_slices (List.replicate live.config.total_bins 0)
        , live := live })

/-- One CAS-winning iteration of `snapshot` (`sliding_window/atomic.rs`,
lines 91-118): move `tick_at` one resolution forward and copy the live
counters into the ring slot `range(end - duration, end).0`, with
`end = tick_at - resolution` and `duration = resolution *
snapshots.len()`. -/
def snapshotStep (h : ASWHistogram) : ASWHistogram :=
  let duration := h.common.resolution * h.snapshots.length
  let end_t := h.tick_at - h.common.resolution
  let start_t := end_t - duration
  let s := (h.common.range start_t end_t).1
  { h with
      tick_at := h.tick_at + h.common.resolution
    , snapshots := h.snapshots.set s h.live.buckets }

/-- Method `snapshot` of `sliding_window/atomic.rs` (lines 70-120): the
`loop` returns as soon as `instant < tick_at`, and otherwise performs a
winning CAS iteration and loops again — so one call catches up one slot
per elapsed tick. (The source loop would not terminate with a zero
resolution; `Common::new` asserts `resolution ≥ 1000`, and the model
returns the state unchanged in that unreachable case.) -/
def snapshot (h : ASWHistogram) (instant : Nat) : ASWHistogram :=
  if instant < h.tick_at then h
  else if h.common.resolution = 0 then h
  else snapshot h.snapshotStep instant
termination_by instant + 1 - h.tick_at
decreasing_by simp_wf; simp [snapshotStep]; omega

/-- Method `add_at` of `sliding_window/atomic.rs` (lines 150-154):
`snapshot(instant)` then record into the live histogram. -/
def add_at (h : ASWHistogram) (instant value count : Nat) : ASWHistogram × Option Error :=
  let h' := h.snapshot instant
  let r := h'.live.add value count
  ({ h' with live := r.1 }, r.2)

end ASWHistogram

/-- Cumulative count of the first `m` buckets of a store given by its
per-index read: the sum `count 0 + ... + count (m-1)`. -/
def sumCounts (count : Nat → Nat) (m : Nat) : Nat := ((List.range m).map count).sum

/-- The ring slot the slow path of `add_at`
(`sliding_window/standard.rs`, lines 119-124) writes: the start index of
`range(end - duration, end)` with `end = tick_at - resolution` and
`duration = resolution * snapshots.len()`. -/
def SWHistogram.refreshSlot (h : SWHistogram) : Nat :=
  (h.common.range
    (h.tick_at - h.common.resolution - h.common.resolution * h.snapshots.length)
    (h.tick_at - h.common.resolution)).1

/-- The ring slot one CAS-winning iteration of `snapshot`
(`sliding_window/atomic.rs`, lines 104-114) writes. -/
def ASWHistogram.refreshSlot (h : ASWHistogram) : Nat :=
  (h.common.range
    (h.tick_at - h.common.resolution - h.common.resolution * h.snapshots.length)
    (h.tick_at - h.common.resolution)).1

namespace Config

theorem div_lt_linear_bins (c : Config) (v : Nat) (h : v < 2 ^ (c.a + c.b)) :
    v / 2 ^ c.a < 2 ^ c.b := by
  rw [Nat.div_lt_iff_lt_mul (Nat.two_pow_pos _)]
  calc v < 2 ^ (c.a + c.b) := h
    _ = 2 ^ c.b * 2 ^ c.a := by rw [← pow_add, Nat.add_comm]

theorem log_index_bounds_eval (c : Config) (e off : Nat)
    (habe : c.a + c.b ≤ e) (hoff : off < 2 ^ c.b) :
    c.index_to_lower_bound (c.linear_bins + (e - (c.a + c.b)) * 2 ^ c.b + off)
        = 2 ^ e + off * 2 ^ (e - c.b) ∧
      c.index_to_upper_bound (c.linear_bins + (e - (c.a + c.b)) * 2 ^ c.b + off)
        = min (2 ^ e + off * 2 ^ (e - c.b) + (2 ^ (e - c.b) - 1)) (2 ^ c.n - 1) := by
  have hB : 0 < 2 ^ c.b := Nat.two_pow_pos _
  have hnotlt : ¬ (c.linear_bins + (e - (c.a + c.b)) * 2 ^ c.b + off < c.linear_bins) := by
    omega
  have hsub : c.linear_bins + (e - (c.a + c.b)) * 2 ^ c.b + off - c.linear_bins
      = (e - (c.a + c.b)) * 2 ^ c.b + off := by omega
  have hdiv : ((e - (c.a + c.b)) * 2 ^ c.b + off) / 2 ^ c.b = e - (c.a + c.b) := by
    rw [Nat.mul_comm, Nat.mul_add_div hB, Nat.div_eq_of_lt hoff, Nat.add_zero]
  have hmod : ((e - (c.a + c.b)) * 2 ^ c.b + off) % 2 ^ c.b = off := by
    rw [Nat.mul_comm, Nat.mul_add_mod, Nat.mod_eq_of_lt hoff]
  have hE : c.a + c.b + (e - (c.a + c.b)) = e := by omega
  constructor
  · rw [index_to_lower_bound, if_neg hnotlt, hsub, hdiv, hmod, hE]
  · rw [index_to_upper_bound, if_neg hnotlt, hsub, hdiv, hmod, hE]

theorem log2_lt_of_lt_pow (c : Config) (v : Nat) (hv : v < 2 ^ c.n) (hv0 : v ≠ 0) :
    Nat.log2 v < c.n := by
  by_contra hcon
  have hle : c.n ≤ Nat.log2 v := by omega
  have h1 : (2:ℕ) ^ c.n ≤ 2 ^ Nat.log2 v := Nat.pow_le_pow_right (by norm_num) hle
  have h2 : 2 ^ Nat.log2 v ≤ v := Nat.log2_self_le hv0
  omega

end Config

/-- C2: for every valid layout parameter triple `(a, b, n)` and every value
`v < 2^n`, `value_to_index` succeeds and the bucket it selects contains the
value: `index_to_lower_bound (value_to_index v) ≤ v ≤
index_to_upper_bound (value_to_index v)`. -/
theorem Config.value_bucket_contains (c : Config) (v : Nat)
    (hab : c.a + c.b < c.n) (hn : c.n ≤ 64) (hv : v < 2 ^ c.n) :
    c.value_to_index v = Except.ok (c.value_index v) ∧
      c.index_to_lower_bound (c.value_index v) ≤ v ∧
      v ≤ c.index_to_upper_bound (c.value_index v) := by
  have hnle : ¬ (2 ^ c.n ≤ v) := by omega
  refine ⟨by rw [value_to_index, if_neg hnle], ?_⟩
  by_cases hlin : v < 2 ^ (c.a + c.b)
  · -- linear region
    have hA : 0 < 2 ^ c.a := Nat.two_pow_pos _
    have hib : v / 2 ^ c.a < c.linear_bins := div_lt_linear_bins c v hlin
    have hvi : c.value_index v = v / 2 ^ c.a := by rw [value_index, if_pos hlin]
    constructor
    · rw [hvi, index_to_lower_bound, if_pos hib]
      exact Nat.div_mul_le_self v (2 ^ c.a)
    · rw [hvi, index_to_upper_bound, if_pos hib]
      have hdm := Nat.div_add_mod v (2 ^ c.a)
      have hm : v % 2 ^ c.a < 2 ^ c.a := Nat.mod_lt v hA
      have hN : 0 < 2 ^ c.n := Nat.two_pow_pos _
      have hcm : v / 2 ^ c.a * 2 ^ c.a = 2 ^ c.a * (v / 2 ^ c.a) := Nat.mul_comm _ _
      exact le_min (by omega) (by omega)
  · -- logarithmic region
    have hge : 2 ^ (c.a + c.b) ≤ v := Nat.le_of_not_lt hlin
    have hL : 0 < 2 ^ (c.a + c.b) := Nat.two_pow_pos _
    have hv0 : v ≠ 0 := by omega
    have he1 : 2 ^ Nat.log2 v ≤ v := Nat.log2_self_le hv0
    have he2 : v < 2 ^ (Nat.log2 v + 1) := Nat.lt_log2_self
    have h2e : (2:ℕ) ^ (Nat.log2 v + 1) = 2 * 2 ^ Nat.log2 v := by
      rw [pow_succ, Nat.mul_comm]
    have habe : c.a + c.b ≤ Nat.log2 v := by
      by_contra hcon
      have hle : Nat.log2 v + 1 ≤ c.a + c.b := by omega
      have := Nat.pow_le_pow_right (by norm_num : 1 ≤ 2) hle
      omega
    have hW : 0 < 2 ^ (Nat.log2 v - c.b) := Nat.two_pow_pos _
    have hWB : (2:ℕ) ^ c.b * 2 ^ (Nat.log2 v - c.b) = 2 ^ Nat.log2 v := by
      rw [← pow_add]
      congr 1
      omega
    have hoff : (v - 2 ^ Nat.log2 v) / 2 ^ (Nat.log2 v - c.b) < 2 ^ c.b := by
      rw [Nat.div_lt_iff_lt_mul hW]
      omega
    have hvi : c.value_index v
        = c.linear_bins + (Nat.log2 v - (c.a + c.b)) * 2 ^ c.b
          + (v - 2 ^ Nat.log2 v) / 2 ^ (Nat.log2 v - c.b) := by
      rw [value_index, if_neg hlin]
    obtain ⟨hlow, hup⟩ := log_index_bounds_eval c (Nat.log2 v)
      ((v - 2 ^ Nat.log2 v) / 2 ^ (Nat.log2 v - c.b)) habe hoff
    have hdm := Nat.div_add_mod (v - 2 ^ Nat.log2 v) (2 ^ (Nat.log2 v - c.b))
    have hdle : (v - 2 ^ Nat.log2 v) / 2 ^ (Nat.log2 v - c.b) * 2 ^ (Nat.log2 v - c.b)
        ≤ v - 2 ^ Nat.log2 v := Nat.div_mul_le_self _ _
    have hm2 : (v - 2 ^ Nat.log2 v) % 2 ^ (Nat.log2 v - c.b) < 2 ^ (Nat.log2 v - c.b) :=
      Nat.mod_lt _ hW
    have hN : 0 < 2 ^ c.n := Nat.two_pow_pos _
    have hcm : (v - 2 ^ Nat.log2 v) / 2 ^ (Nat.log2 v - c.b) * 2 ^ (Nat.log2 v - c.b)
        = 2 ^ (Nat.log2 v - c.b) * ((v - 2 ^ Nat.log2 v) / 2 ^ (Nat.log2 v - c.b)) :=
      Nat.mul_comm _ _
    constructor
    · rw [hvi, hlow]
      omega
    · rw [hvi, hup]
      exact le_min (by omega) (by omega)

/-- C2 witness: the layout `(a, b, n) = (0, 2, 5)` and the value `17`. -/
theorem Config.value_bucket_contains_witness :
    (⟨0, 2, 5⟩ : Config).value_to_index 17
        = Except.ok ((⟨0, 2, 5⟩ : Config).value_index 17) ∧
      (⟨0, 2, 5⟩ : Config).index_to_lower_bound ((⟨0, 2, 5⟩ : Config).value_index 17) ≤ 17 ∧
      17 ≤ (⟨0, 2, 5⟩ : Config).index_to_upper_bound ((⟨0, 2, 5⟩ : Config).value_index 17) :=
  Config.value_bucket_contains ⟨0, 2, 5⟩ 17 (by norm_num) (by norm_num) (by norm_num)

theorem Config.value_index_lt_total_bins (c : Config) (v : Nat)
    (hab : c.a + c.b < c.n) (hv : v < 2 ^ c.n) :
    c.value_index v < c.total_bins := by
  have htb : c.total_bins = 2 ^ c.b + (c.n - c.a - c.b) * 2 ^ c.b := rfl
  by_cases hlin : v < 2 ^ (c.a + c.b)
  · have hib : v / 2 ^ c.a < 2 ^ c.b := div_lt_linear_bins c v hlin
    rw [value_index, if_pos hlin]
    omega
  · have hge : 2 ^ (c.a + c.b) ≤ v := Nat.le_of_not_lt hlin
    have hL : 0 < 2 ^ (c.a + c.b) := Nat.two_pow_pos _
    have hv0 : v ≠ 0 := by omega
    have he1 : 2 ^ Nat.log2 v ≤ v := Nat.log2_self_le hv0
    have he2 : v < 2 ^ (Nat.log2 v + 1) := Nat.lt_log2_self
    have h2e : (2:ℕ) ^ (Nat.log2 v + 1) = 2 * 2 ^ Nat.log2 v := by
      rw [pow_succ, Nat.mul_comm]
    have habe : c.a + c.b ≤ Nat.log2 v := by
      by_contra hcon
      have hle : Nat.log2 v + 1 ≤ c.a + c.b := by omega
      have := Nat.pow_le_pow_right (by norm_num : 1 ≤ 2) hle
      omega
    have hen : Nat.log2 v < c.n := log2_lt_of_lt_pow c v hv hv0
    have hW : 0 < 2 ^ (Nat.log2 v - c.b) := Nat.two_pow_pos _
    have hWB : (2:ℕ) ^ c.b * 2 ^ (Nat.log2 v - c.b) = 2 ^ Nat.log2 v := by
      rw [← pow_add]
      congr 1
      omega
    have hoff : (v - 2 ^ Nat.log2 v) / 2 ^ (Nat.log2 v - c.b) < 2 ^ c.b := by
      rw [Nat.div_lt_iff_lt_mul hW]
      omega
    rw [value_index, if_neg hlin]
    have hkey : (Nat.log2 v - (c.a + c.b)) * 2 ^ c.b
        + (v - 2 ^ Nat.log2 v) / 2 ^ (Nat.log2 v - c.b)
        < (c.n - c.a - c.b) * 2 ^ c.b := by
      have h1 : Nat.log2 v - (c.a + c.b) + 1 ≤ c.n - c.a - c.b := by omega
      calc (Nat.log2 v - (c.a + c.b)) * 2 ^ c.b
            + (v - 2 ^ Nat.log2 v) / 2 ^ (Nat.log2 v - c.b)
          < (Nat.log2 v - (c.a + c.b)) * 2 ^ c.b + 2 ^ c.b := by omega
        _ = (Nat.log2 v - (c.a + c.b) + 1) * 2 ^ c.b := by ring
        _ ≤ (c.n - c.a - c.b) * 2 ^ c.b := mul_le_mul_right' h1 _
    have hlb : c.linear_bins = 2 ^ c.b := rfl
    omega

/-- C6: for every layout with `n < 64`, `add` (and hence `increment`) with
a value at least `2^n` returns `ValueOutOfRange` and leaves every bucket
counter exactly as it was, while a value below `2^n` succeeds, writing a
bucket index within `total_bins` — for both the exclusive and the atomic
store. -/
theorem add_value_out_of_range_behavior :
    (∀ (h : Histogram) (v cnt : Nat),
        h.config.a + h.config.b < h.config.n → h.config.n < 64 →
        (2 ^ h.config.n ≤ v → h.add v cnt = (h, some Error.valueOutOfRange)) ∧
        (v < 2 ^ h.config.n →
          (h.add v cnt).2 = none ∧
            h.config.value_index v < h.config.total_bins)) ∧
    (∀ (h : AtomicHistogram) (v cnt : Nat),
        h.config.a + h.config.b < h.config.n → h.config.n < 64 →
        (2 ^ h.config.n ≤ v → h.add v cnt = (h, some Error.valueOutOfRange)) ∧
        (v < 2 ^ h.config.n →
          (h.add v cnt).2 = none ∧
            h.config.value_index v < h.config.total_bins)) := by
  constructor <;>
    · intro h v cnt hab _hn
      constructor
      · intro hge
        have herr : h.config.value_to_index v = .error .valueOutOfRange := by
          rw [Config.value_to_index, if_pos hge]
        first
          | simp [Histogram.add, herr]
          | simp [AtomicHistogram.add, herr]
      · intro hlt
        have hok : h.config.value_to_index v = .ok (h.config.value_index v) := by
          rw [Config.value_to_index, if_neg (by omega)]
        refine ⟨?_, Config.value_index_lt_total_bins h.config v hab hlt⟩
        first
          | simp [Histogram.add, hok]
          | simp [AtomicHistogram.add, hok]

/-- C6 witness: the layout `(0, 0, 1)`: value `2` is rejected leaving the
store untouched, value `1` succeeds, for both store variants. -/
theorem add_value_out_of_range_behavior_witness :
    ((⟨⟨0, 0, 1⟩, [0, 0]⟩ : Histogram).add 2 1
        = (⟨⟨0, 0, 1⟩, [0, 0]⟩, some Error.valueOutOfRange)) ∧
      (((⟨⟨0, 0, 1⟩, [0, 0]⟩ : Histogram).add 1 3).2 = none ∧
        (⟨0, 0, 1⟩ : Config).value_index 1 < (⟨0, 0, 1⟩ : Config).total_bins) ∧
      ((⟨⟨0, 0, 1⟩, [0, 0]⟩ : AtomicHistogram).add 2 1
        = (⟨⟨0, 0, 1⟩, [0, 0]⟩, some Error.valueOutOfRange)) ∧
      (((⟨⟨0, 0, 1⟩, [0, 0]⟩ : AtomicHistogram).add 1 3).2 = none ∧
        (⟨0, 0, 1⟩ : Config).value_index 1 < (⟨0, 0, 1⟩ : Config).total_bins) :=
  ⟨(add_value_out_of_range_behavior.1 ⟨⟨0, 0, 1⟩, [0, 0]⟩ 2 1 (by norm_num)
      (by norm_num)).1 (by norm_num),
   (add_value_out_of_range_behavior.1 ⟨⟨0, 0, 1⟩, [0, 0]⟩ 1 3 (by norm_num)
      (by norm_num)).2 (by norm_num),
   (add_value_out_of_range_behavior.2 ⟨⟨0, 0, 1⟩, [0, 0]⟩ 2 1 (by norm_num)
      (by norm_num)).1 (by norm_num),
   (add_value_out_of_range_behavior.2 ⟨⟨0, 0, 1⟩, [0, 0]⟩ 1 3 (by norm_num)
      (by norm_num)).2 (by norm_num)⟩

/-- C5 counterexample: with `(a, b, n) = (200, 100, 64)` the mathematical
sum `a + b = 300` is at least `n`, so the claim demands an invalid-config
error, yet `Builder::new` accepts the triple because its `u8` sum wraps to
`44 < 64`. -/
theorem builder_new_wrapping_counterexample :
    Builder.new 200 100 64 = Except.ok ⟨200, 100, 64⟩ ∧ 64 ≤ 200 + 100 := by
  constructor
  · rw [Builder.new, if_neg (by norm_num), if_neg (by norm_num)]
  · norm_num

/-- C5 amended: `Builder::new` rejects a triple iff `n > 64` or
`n ≤ (a + b) mod 256` (the `u8` wrapping sum), while `Histogram::new`
(through `Config::new`) rejects iff `n > 64` or `n ≤ a + b` with the
mathematical sum; for parameters with `n ≤ 64` and `a + b < n` both always
succeed. -/
theorem builder_and_config_new_error_iff :
    (∀ a b n : Nat, a < 2 ^ 8 → b < 2 ^ 8 → n < 2 ^ 8 →
        ((∃ e, Builder.new a b n = .error e) ↔ 64 < n ∨ n ≤ (a + b) % 2 ^ 8)) ∧
    (∀ a b n : Nat, a < 2 ^ 8 → b < 2 ^ 8 → n < 2 ^ 8 →
        ((∃ e, Histogram.new a b n = .error e) ↔ 64 < n ∨ n ≤ a + b)) ∧
    (∀ a b n : Nat, n ≤ 64 → a + b < n →
        Builder.new a b n = .ok ⟨a, b, n⟩ ∧
          Histogram.new a b n
            = .ok ⟨⟨a, b, n⟩, List.replicate (Config.total_bins ⟨a, b, n⟩) 0⟩) := by
  refine ⟨?_, ?_, ?_⟩
  · intro a b n _ _ _
    rw [Builder.new]
    split_ifs with h1 h2
    · exact iff_of_true ⟨_, rfl⟩ (Or.inl h1)
    · exact iff_of_true ⟨_, rfl⟩ (Or.inr h2)
    · constructor
      · rintro ⟨e, he⟩
        simp at he
      · intro hor
        exfalso
        omega
  · intro a b n _ _ _
    rw [Histogram.new, Config.new]
    split_ifs with h1 h2
    · exact iff_of_true ⟨_, rfl⟩ (Or.inl h1)
    · exact iff_of_true ⟨_, rfl⟩ (Or.inr h2)
    · constructor
      · rintro ⟨e, he⟩
        simp [Except.map] at he
      · intro hor
        exfalso
        omega
  · intro a b n h64 hab
    constructor
    · rw [Builder.new, if_neg (by omega), if_neg (by omega)]
    · rw [Histogram.new, Config.new, if_neg (by omega), if_neg (by omega)]
      rfl

/-- C5 witness: the valid triple `(0, 7, 64)` builds on both paths, the
wrapped triple `(200, 100, 64)` is accepted by `Builder::new` but rejected
by `Histogram::new`. -/
theorem builder_and_config_new_error_iff_witness :
    (Builder.new 0 7 64 = Except.ok ⟨0, 7, 64⟩ ∧
        Histogram.new 0 7 64
          = Except.ok ⟨⟨0, 7, 64⟩, List.replicate (Config.total_bins ⟨0, 7, 64⟩) 0⟩) ∧
      ((∃ e, Builder.new 200 100 64 = .error e) ↔ 64 < 64 ∨ 64 ≤ (200 + 100) % 2 ^ 8) ∧
      ((∃ e, Histogram.new 200 100 64 = .error e) ↔ 64 < 64 ∨ 64 ≤ 200 + 100) :=
  ⟨builder_and_config_new_error_iff.2.2 0 7 64 (by norm_num) (by norm_num),
   builder_and_config_new_error_iff.1 200 100 64 (by norm_num) (by norm_num) (by norm_num),
   builder_and_config_new_error_iff.2.1 200 100 64 (by norm_num) (by norm_num) (by norm_num)⟩

theorem sparsePairs_find_none (l : List Nat) : ∀ (k j : Nat), j < k →
    List.findIdx? (fun x => x == j) ((sparsePairs k l).map Prod.fst) = none := by
  induction l with
  | nil => intro k j _; rfl
  | cons c cs ih =>
    intro k j hj
    by_cases hc : c ≠ 0
    · simp only [sparsePairs, if_pos hc, List.map_cons]
      rw [List.findIdx?_cons, if_neg (by simp; omega), List.findIdx?_succ,
        ih (k + 1) j (by omega)]
      rfl
    · simp only [sparsePairs, if_neg hc]
      exact ih (k + 1) j (by omega)

theorem sparsePairs_lookup (l : List Nat) : ∀ (k i : Nat), i < l.length →
    (match List.findIdx? (fun j => j == k + i) ((sparsePairs k l).map Prod.fst) with
      | some pos => ((sparsePairs k l).map Prod.snd).getD pos 0
      | none => 0) = l.getD i 0 := by
  induction l with
  | nil => intro k i hi; simp at hi
  | cons c cs ih =>
    intro k i hi
    by_cases hc : c ≠ 0
    · simp only [sparsePairs, if_pos hc, List.map_cons]
      cases i with
      | zero =>
        rw [List.findIdx?_cons, if_pos (by simp)]
        simp
      | succ j =>
        rw [List.findIdx?_cons, if_neg (by simp), List.findIdx?_succ]
        have harg : k + (j + 1) = (k + 1) + j := by omega
        rw [harg]
        have ih' := ih (k + 1) j (by simpa using hi)
        cases hfind : List.findIdx? (fun x => x == (k + 1) + j)
            ((sparsePairs (k + 1) cs).map Prod.fst) with
        | none =>
          rw [hfind] at ih'
          simpa using ih'
        | some pos =>
          rw [hfind] at ih'
          simpa using ih'
    · simp only [sparsePairs, if_neg hc]
      push_neg at hc
      cases i with
      | zero =>
        rw [Nat.add_zero, sparsePairs_find_none cs (k + 1) k (by omega)]
        simp [hc]
      | succ j =>
        have harg : k + (j + 1) = (k + 1) + j := by omega
        rw [harg]
        have ih' := ih (k + 1) j (by simpa using hi)
        simpa using ih'

/-- C4: converting an exclusive or an atomic histogram to the sparse form
and reading back `get_count(i)` returns exactly the original store's count
for every index `i` below `total_bins`, including indices whose original
count is zero (omitted by the sparse form and reported as `0`). -/
theorem compact_roundtrip_get_count :
    (∀ (h : Histogram) (i : Nat),
        h.buckets.length = h.config.total_bins → i < h.config.total_bins →
        (CompactHistogram.of_histogram h).get_count i = h.get_count i) ∧
    (∀ (h : AtomicHistogram) (i : Nat),
        h.buckets.length = h.config.total_bins → i < h.config.total_bins →
        (CompactHistogram.of_atomic h).get_count i = h.get_count i) := by
  constructor <;>
    · intro h i hlen hi
      have key := sparsePairs_lookup h.buckets 0 i (by omega)
      rw [Nat.zero_add] at key
      first
        | simpa [CompactHistogram.get_count, CompactHistogram.of_histogram,
            Histogram.get_count] using key
        | simpa [CompactHistogram.get_count, CompactHistogram.of_atomic,
            AtomicHistogram.get_count] using key

/-- C4 witness: the store `[0, 5]` over layout `(0, 0, 1)`; index `0` has a
zero count (absent from the sparse form), index `1` a non-zero one. -/
theorem compact_roundtrip_get_count_witness :
    ((CompactHistogram.of_histogram ⟨⟨0, 0, 1⟩, [0, 5]⟩).get_count 0
        = (⟨⟨0, 0, 1⟩, [0, 5]⟩ : Histogram).get_count 0) ∧
      ((CompactHistogram.of_atomic ⟨⟨0, 0, 1⟩, [0, 5]⟩).get_count 1
        = (⟨⟨0, 0, 1⟩, [0, 5]⟩ : AtomicHistogram).get_count 1) :=
  ⟨compact_roundtrip_get_count.1 ⟨⟨0, 0, 1⟩, [0, 5]⟩ 0 (by norm_num [Config.total_bins, Config.linear_bins])
      (by norm_num [Config.total_bins, Config.linear_bins]),
   compact_roundtrip_get_count.2 ⟨⟨0, 0, 1⟩, [0, 5]⟩ 1 (by norm_num [Config.total_bins, Config.linear_bins])
      (by norm_num [Config.total_bins, Config.linear_bins])⟩

theorem sumCounts_succ (count : Nat → Nat) (m : Nat) :
    sumCounts count (m + 1) = sumCounts count m + count m := by
  simp [sumCounts, List.range_succ]

theorem sumCounts_mono (count : Nat → Nat) {m k : Nat} (h : m ≤ k) :
    sumCounts count m ≤ sumCounts count k := by
  induction h with
  | refl => exact le_refl _
  | step _ ih =>
    rw [sumCounts_succ]
    omega

theorem floor_le_rhe (r : ℚ) : ⌊r⌋ ≤ rhe r := by
  rw [rhe]
  split_ifs <;> omega

theorem rhe_le_ceil (r : ℚ) : rhe r ≤ ⌈r⌉ := by
  have hfl := Int.floor_le_ceil r
  have hstep : (⌊r⌋ : ℚ) < r → ⌊r⌋ + 1 ≤ ⌈r⌉ := by
    intro hlt
    rw [Int.add_one_le_iff]
    by_contra hcon
    push_neg at hcon
    have h1 : r ≤ (⌈r⌉ : ℚ) := Int.le_ceil r
    have h2 : ((⌈r⌉ : ℤ) : ℚ) ≤ ((⌊r⌋ : ℤ) : ℚ) := by exact_mod_cast hcon
    linarith
  rw [rhe]
  split_ifs with h1 h2 h3
  · exact hfl
  · exact hstep (by linarith)
  · exact hfl
  · exact hstep (by linarith)

theorem rhe_intCast (z : ℤ) : rhe (z : ℚ) = z := by
  rw [rhe, Int.floor_intCast]
  norm_num

theorem roundF64pos_zero : roundF64pos 0 = 0 := by
  rw [roundF64pos]
  norm_num [rhe]

theorem roundF64pos_nonneg (q : ℚ) (h : 0 ≤ q) : 0 ≤ roundF64pos q := by
  rw [roundF64pos]
  have h2 : (0:ℚ) < 2 ^ f64scale q := zpow_pos (by norm_num) _
  have h3 : (0:ℤ) ≤ rhe (q / 2 ^ f64scale q) := by
    have hle := floor_le_rhe (q / 2 ^ f64scale q)
    have h4 : (0:ℤ) ≤ ⌊q / 2 ^ f64scale q⌋ := Int.floor_nonneg.mpr (by positivity)
    omega
  exact mul_nonneg (by exact_mod_cast h3) (le_of_lt h2)

theorem roundF64_nonpos (q : ℚ) (h : q ≤ 0) : roundF64 q ≤ 0 := by
  rw [roundF64]
  split_ifs with hneg
  · have := roundF64pos_nonneg (-q) (by linarith)
    linarith
  · have hq : q = 0 := le_antisymm h (not_lt.mp hneg)
    rw [hq, roundF64pos_zero]

theorem natCast_div_zpow_int (T : ℕ) (s : ℤ) (hs : s ≤ 0) :
    (T : ℚ) / 2 ^ s = (((T : ℤ) * 2 ^ (-s).toNat : ℤ) : ℚ) := by
  have h2 : (0:ℚ) < 2 ^ s := zpow_pos (by norm_num) _
  rw [div_eq_iff (ne_of_gt h2)]
  push_cast
  rw [mul_assoc, ← zpow_natCast (2:ℚ) (-s).toNat, ← zpow_add₀ (by norm_num : (2:ℚ) ≠ 0),
    show ((-s).toNat : ℤ) + s = 0 by omega]
  norm_num

theorem roundF64pos_le_of_le (x : ℚ) (T : ℕ) (hx : 0 < x) (hT : x ≤ T)
    (h53 : T ≤ 2 ^ 53) : roundF64pos x ≤ T := by
  have h2 : (0:ℚ) < 2 ^ f64scale x := zpow_pos (by norm_num) _
  have hceil : (rhe (x / 2 ^ f64scale x) : ℚ) ≤ (⌈x / 2 ^ f64scale x⌉ : ℚ) := by
    exact_mod_cast rhe_le_ceil _
  by_cases hsle : f64scale x ≤ 0
  · have hkey : (⌈x / 2 ^ f64scale x⌉ : ℚ) ≤ (T : ℚ) / 2 ^ f64scale x := by
      have hz : ⌈x / 2 ^ f64scale x⌉ ≤ (T : ℤ) * 2 ^ (-f64scale x).toNat := by
        rw [Int.ceil_le, ← natCast_div_zpow_int T _ hsle]
        exact (div_le_div_iff_of_pos_right h2).mpr hT
      rw [natCast_div_zpow_int T _ hsle]
      exact_mod_cast hz
    calc roundF64pos x = (rhe (x / 2 ^ f64scale x) : ℚ) * 2 ^ f64scale x := by
          rw [roundF64pos]
      _ ≤ (⌈x / 2 ^ f64scale x⌉ : ℚ) * 2 ^ f64scale x :=
          mul_le_mul_of_nonneg_right hceil (le_of_lt h2)
      _ ≤ ((T : ℚ) / 2 ^ f64scale x) * 2 ^ f64scale x :=
          mul_le_mul_of_nonneg_right hkey (le_of_lt h2)
      _ = T := div_mul_cancel₀ _ (ne_of_gt h2)
  · push_neg at hsle
    have hmax : f64scale x = max (Int.log 2 x - 52) (-1074) := by rw [f64scale]
    have hlog53 : 53 ≤ Int.log 2 x := by omega
    have hx53 : (2:ℚ) ^ (53:ℤ) ≤ x := by
      calc (2:ℚ) ^ (53:ℤ) ≤ (2:ℚ) ^ Int.log 2 x :=
            zpow_le_zpow_right₀ (by norm_num) hlog53
        _ ≤ x := by exact_mod_cast Int.zpow_log_le_self (by norm_num) hx
    have hTcast : (T:ℚ) ≤ (2:ℚ) ^ (53:ℤ) := by
      have h1 : (T:ℚ) ≤ ((2 ^ 53 : ℕ) : ℚ) := by exact_mod_cast h53
      have h2' : ((2 ^ 53 : ℕ) : ℚ) = (2:ℚ) ^ (53:ℤ) := by norm_num
      linarith
    have hxeq : x = (2:ℚ) ^ (53:ℤ) := le_antisymm (le_trans hT hTcast) hx53
    have hTeq : (T:ℚ) = (2:ℚ) ^ (53:ℤ) := le_antisymm hTcast (le_trans hx53 hT)
    have hlogx : Int.log 2 x = 53 := by
      rw [hxeq]
      have h0 : Int.log 2 (((2:ℕ) : ℚ) ^ (53:ℤ)) = 53 := Int.log_zpow (by norm_num) 53
      exact_mod_cast h0
    have hseq : f64scale x = 1 := by rw [hmax, hlogx]; norm_num
    rw [roundF64pos, hseq, hxeq,
      show (2:ℚ) ^ (53:ℤ) / 2 ^ (1:ℤ) = ((2 ^ 52 : ℤ) : ℚ) by
        rw [← zpow_sub₀ (by norm_num : (2:ℚ) ≠ 0)]; norm_num,
      rhe_intCast, hTeq]
    norm_num

theorem roundF64_natCast_exact (T : ℕ) (h53 : T ≤ 2 ^ 53) : roundF64 (T : ℚ) = T := by
  rw [roundF64, if_neg (not_lt.mpr (by positivity))]
  rcases Nat.eq_zero_or_pos T with h0 | hTpos
  · rw [h0]
    simpa using roundF64pos_zero
  · by_cases hlt : T < 2 ^ 53
    · have hlog : Int.log 2 ((T:ℕ) : ℚ) = (Nat.log 2 T : ℤ) := Int.log_natCast 2 T
      have hlog52 : Nat.log 2 T ≤ 52 := by
        have := Nat.log_lt_of_lt_pow (by omega : T ≠ 0) hlt
        omega
      have hsle : f64scale (T:ℚ) ≤ 0 := by
        rw [f64scale, hlog]
        omega
      rw [roundF64pos, natCast_div_zpow_int T _ hsle, rhe_intCast,
        ← natCast_div_zpow_int T _ hsle]
      exact div_mul_cancel₀ _ (ne_of_gt (zpow_pos (by norm_num) _))
    · have hTeq : T = 2 ^ 53 := by omega
      subst hTeq
      have hc : ((2 ^ 53 : ℕ) : ℚ) = (2:ℚ) ^ (53:ℤ) := by norm_num
      have hlog : Int.log 2 (((2 ^ 53 : ℕ) : ℚ)) = 53 := by
        rw [hc]
        have h0 : Int.log 2 (((2:ℕ) : ℚ) ^ (53:ℤ)) = 53 := Int.log_zpow (by norm_num) 53
        exact_mod_cast h0
      have hsc : f64scale (((2 ^ 53 : ℕ) : ℚ)) = 1 := by
        rw [f64scale, hlog]
        norm_num
      rw [roundF64pos, hsc, hc,
        show (2:ℚ) ^ (53:ℤ) / 2 ^ (1:ℤ) = ((2 ^ 52 : ℤ) : ℚ) by
          rw [← zpow_sub₀ (by norm_num : (2:ℚ) ≠ 0)]; norm_num,
        rhe_intCast]
      norm_num

theorem neededCount_le_total_of_le (p : ℚ) (total : Nat) (hp : p ≤ 100)
    (h53 : total ≤ 2 ^ 53) : neededCount p total ≤ total := by
  rw [neededCount, roundF64_natCast_exact total h53]
  have hdle : roundF64 (p / 100) ≤ 1 := by
    by_cases hp0 : p ≤ 0
    · have hq : p / 100 ≤ 0 := by
        have h := (div_le_div_iff_of_pos_right (by norm_num : (0:ℚ) < 100)).mpr hp0
        simpa using h
      have := roundF64_nonpos _ hq
      linarith
    · push_neg at hp0
      have hq : 0 < p / 100 := by positivity
      have hle : p / 100 ≤ ((1:ℕ) : ℚ) := by
        rw [Nat.cast_one, div_le_one (by norm_num : (0:ℚ) < 100)]
        exact hp
      have hmain := roundF64pos_le_of_le (p / 100) 1 hq hle (by norm_num)
      rw [roundF64, if_neg (not_lt.mpr (le_of_lt hq))]
      simpa using hmain
  have hprod : roundF64 (roundF64 (p / 100) * total) ≤ (total : ℚ) := by
    by_cases hd0 : roundF64 (p / 100) ≤ 0
    · have hm : roundF64 (p / 100) * (total : ℚ) ≤ 0 := by
        have h := mul_le_mul_of_nonneg_right hd0 (by positivity : (0:ℚ) ≤ total)
        simpa using h
      have := roundF64_nonpos _ hm
      have h0 : (0:ℚ) ≤ total := by positivity
      linarith
    · push_neg at hd0
      rcases Nat.eq_zero_or_pos total with h0 | hpos
      · rw [h0]
        push_cast
        rw [mul_zero, roundF64, if_neg (by norm_num), roundF64pos_zero]
      · have hmp : 0 < roundF64 (p / 100) * (total : ℚ) :=
          mul_pos hd0 (by exact_mod_cast hpos)
        have hml : roundF64 (p / 100) * (total : ℚ) ≤ (total : ℚ) := by
          calc roundF64 (p / 100) * (total : ℚ) ≤ 1 * total :=
                mul_le_mul_of_nonneg_right hdle (by positivity)
            _ = total := one_mul _
        have := roundF64pos_le_of_le _ total hmp hml h53
        rw [roundF64, if_neg (not_lt.mpr (le_of_lt hmp))]
        exact this
  rw [Int.toNat_le, Int.ceil_le]
  exact_mod_cast hprod

theorem innerWalk_found_spec (cfg : Config) (count : Nat → Nat) (needed : Nat) :
    ∀ (fuel hav cur mx f hav' mx' : Nat), cfg.total_bins - cur ≤ fuel →
      hav = sumCounts count cur →
      innerWalk cfg count needed hav cur mx = .found f hav' mx' →
      cur ≤ f ∧ f < cfg.total_bins ∧ hav' = sumCounts count (f + 1) ∧
        needed ≤ hav' ∧
        ∀ k, cur ≤ k → k < f → sumCounts count (k + 1) < needed := by
  intro fuel
  induction fuel with
  | zero =>
    intro hav cur mx f hav' mx' hfuel hsum hw
    rw [innerWalk, if_pos (by omega)] at hw
    exact absurd hw (by simp)
  | succ fl ih =>
    intro hav cur mx f hav' mx' hfuel hsum hw
    by_cases hcur : cfg.total_bins ≤ cur
    · rw [innerWalk, if_pos hcur] at hw
      exact absurd hw (by simp)
    · rw [innerWalk, if_neg hcur] at hw
      by_cases hn : needed ≤ hav + count cur
      · rw [if_pos hn] at hw
        simp only [InnerResult.found.injEq] at hw
        obtain ⟨hf, hh, _⟩ := hw
        refine ⟨by omega, by omega, ?_, by omega, ?_⟩
        · rw [← hf, sumCounts_succ]
          omega
        · intro k hk1 hk2
          omega
      · rw [if_neg hn] at hw
        obtain ⟨h1, h2, h3, h4, h5⟩ := ih (hav + count cur) (cur + 1)
          (if 0 < count cur then cur else mx) f hav' mx' (by omega)
          (by rw [sumCounts_succ]; omega) hw
        refine ⟨by omega, h2, h3, h4, ?_⟩
        intro k hk1 hk2
        rcases Nat.eq_or_lt_of_le hk1 with heq | hlt
        · rw [← heq, sumCounts_succ]
          omega
        · exact h5 k (by omega) hk2

theorem innerWalk_not_exhausted (cfg : Config) (count : Nat → Nat) (needed : Nat) :
    ∀ (fuel hav cur mx : Nat), cfg.total_bins - cur ≤ fuel →
      hav = sumCounts count cur → hav < needed →
      needed ≤ sumCounts count cfg.total_bins →
      ∀ mx', innerWalk cfg count needed hav cur mx ≠ .exhausted mx' := by
  intro fuel
  induction fuel with
  | zero =>
    intro hav cur mx hfuel hsum hlt hle mx' _
    have hcur : cfg.total_bins ≤ cur := by omega
    have := sumCounts_mono count hcur
    omega
  | succ fl ih =>
    intro hav cur mx hfuel hsum hlt hle mx' hw
    by_cases hcur : cfg.total_bins ≤ cur
    · have := sumCounts_mono count hcur
      omega
    · rw [innerWalk, if_neg hcur] at hw
      by_cases hn : needed ≤ hav + count cur
      · rw [if_pos hn] at hw
        exact absurd hw (by simp)
      · rw [if_neg hn] at hw
        exact ih (hav + count cur) (cur + 1) _ (by omega)
          (by rw [sumCounts_succ]; omega) (by omega) hle mx' hw

theorem outerWalk_leftover_nil (cfg : Config) (count : Nat → Nat) (total : Nat)
    (htot : total ≤ sumCounts count cfg.total_bins) :
    ∀ (ps : List ℚ) (hav cur mx : Nat) (acc : List (ℚ × Bucket)),
      hav = sumCounts count cur →
      (∀ p ∈ ps, neededCount p total ≤ total) →
      (outerWalk cfg count total ps hav cur mx acc).2.1 = [] := by
  intro ps
  induction ps with
  | nil =>
    intro hav cur mx acc _ _
    rfl
  | cons p ps ih =>
    intro hav cur mx acc hsum hall
    simp only [outerWalk]
    by_cases hfast : neededCount p total ≤ hav
    · rw [if_pos hfast]
      exact ih _ _ _ _ hsum fun q hq => hall q (by simp [hq])
    · rw [if_neg hfast]
      cases hw : innerWalk cfg count (neededCount p total) hav cur mx with
      | exhausted mx' =>
        exact absurd hw (innerWalk_not_exhausted cfg count _ (cfg.total_bins - cur)
          hav cur mx le_rfl hsum (by omega)
          (le_trans (hall p (by simp)) htot) mx')
      | found f hav' mx' =>
        obtain ⟨_, _, h3, _, _⟩ := innerWalk_found_spec cfg count (neededCount p total)
          (cfg.total_bins - cur) hav cur mx f hav' mx' le_rfl hsum hw
        exact ih hav' (f + 1) mx' _ h3 fun q hq => hall q (by simp [hq])

theorem roundF64_one : roundF64 (1 : ℚ) = 1 := by
  have h := roundF64_natCast_exact 1 (by norm_num)
  simpa using h

theorem roundF64_half : roundF64 ((1 : ℚ) / 2) = 1 / 2 := by
  rw [roundF64, if_neg (by norm_num), roundF64pos]
  have hlog : Int.log 2 ((1 : ℚ) / 2) = -1 := by
    have h0 : Int.log 2 (((2:ℕ) : ℚ) ^ (-(1:ℤ))) = -1 := Int.log_zpow (by norm_num) (-1)
    have h1 : ((2:ℕ) : ℚ) ^ (-(1:ℤ)) = 1 / 2 := by push_cast; norm_num
    rw [← h1]
    exact h0
  rw [f64scale, hlog, show max (-(1:ℤ) - 52) (-1074) = -53 by norm_num]
  rw [show (1 : ℚ) / 2 / 2 ^ (-(53:ℤ)) = ((2 ^ 52 : ℤ) : ℚ) by
    rw [div_eq_iff (ne_of_gt (zpow_pos (by norm_num : (0:ℚ) < 2) _))]
    push_cast
    norm_num]
  rw [rhe_intCast]
  push_cast
  norm_num

theorem roundF64_pow54_7 :
    roundF64 ((2 ^ 54 + 7 : ℕ) : ℚ) = ((2 ^ 54 + 8 : ℕ) : ℚ) := by
  rw [roundF64, if_neg (not_lt.mpr (by positivity)), roundF64pos]
  have hlognat : Nat.log 2 (2 ^ 54 + 7) = 54 :=
    Nat.log_eq_of_pow_le_of_lt_pow (by norm_num) (by norm_num)
  have hlog : Int.log 2 ((2 ^ 54 + 7 : ℕ) : ℚ) = 54 := by
    rw [Int.log_natCast, hlognat]
    norm_num
  rw [f64scale, hlog, show max ((54:ℤ) - 52) (-1074) = 2 by norm_num]
  have hq : ((2 ^ 54 + 7 : ℕ) : ℚ) / 2 ^ (2:ℤ) = (2 ^ 54 + 7 : ℚ) / 4 := by
    push_cast
    norm_num
  rw [hq]
  have hfl : ⌊(2 ^ 54 + 7 : ℚ) / 4⌋ = 2 ^ 52 + 1 := by
    rw [Int.floor_eq_iff]
    constructor
    · push_cast
      norm_num
    · push_cast
      norm_num
  rw [rhe, hfl, if_neg (by push_cast; norm_num), if_pos (by push_cast; norm_num)]
  push_cast
  norm_num

theorem roundF64_pow54_8 :
    roundF64 ((2 ^ 54 + 8 : ℕ) : ℚ) = ((2 ^ 54 + 8 : ℕ) : ℚ) := by
  rw [roundF64, if_neg (not_lt.mpr (by positivity)), roundF64pos]
  have hlognat : Nat.log 2 (2 ^ 54 + 8) = 54 :=
    Nat.log_eq_of_pow_le_of_lt_pow (by norm_num) (by norm_num)
  have hlog : Int.log 2 ((2 ^ 54 + 8 : ℕ) : ℚ) = 54 := by
    rw [Int.log_natCast, hlognat]
    norm_num
  rw [f64scale, hlog, show max ((54:ℤ) - 52) (-1074) = 2 by norm_num]
  rw [show ((2 ^ 54 + 8 : ℕ) : ℚ) / 2 ^ (2:ℤ) = ((2 ^ 52 + 2 : ℤ) : ℚ) by
    push_cast
    norm_num]
  rw [rhe_intCast]
  push_cast
  norm_num

theorem neededCount_100_pow54 : neededCount 100 (2 ^ 54 + 7) = 2 ^ 54 + 8 := by
  rw [neededCount,
    show (100 : ℚ) / 100 = 1 by norm_num, roundF64_one, roundF64_pow54_7, one_mul,
    roundF64_pow54_8,
    show ((2 ^ 54 + 8 : ℕ) : ℚ) = ((2 ^ 54 + 8 : ℤ) : ℚ) by push_cast; ring,
    Int.ceil_intCast]
  rfl

theorem neededCount_50_1 : neededCount 50 1 = 1 := by
  rw [neededCount,
    show ((1 : ℕ) : ℚ) = (1 : ℚ) by norm_num, roundF64_one,
    show (50 : ℚ) / 100 = 1 / 2 by norm_num, roundF64_half, mul_one, roundF64_half,
    show (⌈(1 / 2 : ℚ)⌉ : ℤ) = 1 by rw [Int.ceil_eq_iff] <;> norm_num]
  rfl

/-- C7 counterexample: the claim fails on the program's `f64` arithmetic.
A store over layout `(0, 0, 1)` holding `2^54 + 7` occurrences in bucket 0
(one `add` call) is not mutated, and the requested percentile `100` is at
most `100`; yet the `u128` to `f64` cast at `lib.rs` line 100 rounds the
total `2^54 + 7` up to `2^54 + 8`, so `needed` exceeds the true total, the
walk exhausts every bucket, and the best-effort fill branch is reached in
purely sequential execution: the leftover list is `[100]`, not empty. -/
theorem percentiles_fill_branch_reached_counterexample :
    neededCount 100 (2 ^ 54 + 7) = 2 ^ 54 + 8 ∧
      2 ^ 54 + 7
        = sumCounts (fun i => [2 ^ 54 + 7, 0].getD i 0) (Config.total_bins ⟨0, 0, 1⟩) ∧
      (100 : ℚ) ≤ 100 ∧
      (outerWalk ⟨0, 0, 1⟩ (fun i => [2 ^ 54 + 7, 0].getD i 0) (2 ^ 54 + 7)
          ([(100 : ℚ)].mergeSort fun x y => decide (x ≤ y)) 0 0 0 []).2.1
        = [(100 : ℚ)] ∧
      ([(100 : ℚ)] : List ℚ) ≠ [] := by
  have hIW : innerWalk ⟨0, 0, 1⟩ (fun i => [2 ^ 54 + 7, 0].getD i 0) (2 ^ 54 + 8) 0 0 0
      = .exhausted 0 := by
    rw [innerWalk]
    norm_num [Config.total_bins, Config.linear_bins]
    rw [innerWalk]
    norm_num [Config.total_bins, Config.linear_bins]
    rw [innerWalk]
    norm_num [Config.total_bins, Config.linear_bins]
  have hOW : outerWalk ⟨0, 0, 1⟩ (fun i => [2 ^ 54 + 7, 0].getD i 0) (2 ^ 54 + 7)
      [(100 : ℚ)] 0 0 0 [] = ([], [(100 : ℚ)], 0) := by
    rw [outerWalk, neededCount_100_pow54, if_neg (by norm_num), hIW]
  refine ⟨neededCount_100_pow54, ?_, le_refl _, ?_, by simp⟩
  · simp [sumCounts, Config.total_bins, Config.linear_bins, List.range_succ]
  · rw [show List.mergeSort [(100 : ℚ)] (fun x y => decide (x ≤ y)) = [(100 : ℚ)] from
      List.mergeSort_eq_self (List.sorted_singleton _), hOW]

/-- C7 amended: if every requested percentile is at most 100, the store is
not mutated during the query, and the total count is at most `2^53` (so
the `u128` to `f64` cast of the total is exact and every computed `needed`
stays at most the total), the bucket walk serves every requested
percentile before running out of bucket indices: the leftover list driving
the best-effort fill branch of `percentiles` is empty. For larger totals
the cast can round the total upward and the fill branch is reachable
sequentially — see the counterexample. -/
theorem percentiles_fill_branch_unreachable_small_total (cfg : Config)
    (count : Nat → Nat) (total : Nat) (ps : List ℚ)
    (htot : total = sumCounts count cfg.total_bins)
    (h53 : total ≤ 2 ^ 53)
    (hp : ∀ p ∈ ps, p ≤ 100) :
    (outerWalk cfg count total (ps.mergeSort fun x y => decide (x ≤ y)) 0 0 0 []).2.1
      = [] :=
  outerWalk_leftover_nil cfg count total (by omega)
    (ps.mergeSort fun x y => decide (x ≤ y)) 0 0 0 [] rfl
    fun q hq => neededCount_le_total_of_le q total
      (hp q ((List.mergeSort_perm ps _).mem_iff.mp hq)) h53

/-- C7 witness: the store `[1, 0]` over layout `(0, 0, 1)` (total `1`,
far below `2^53`) with the single requested percentile `50`. -/
theorem percentiles_fill_branch_unreachable_small_total_witness :
    (outerWalk ⟨0, 0, 1⟩ (fun i => [1, 0].getD i 0) 1
        ([(50 : ℚ)].mergeSort fun x y => decide (x ≤ y)) 0 0 0 []).2.1 = [] :=
  percentiles_fill_branch_unreachable_small_total ⟨0, 0, 1⟩ (fun i => [1, 0].getD i 0) 1
    [(50 : ℚ)]
    (by simp [sumCounts, Config.total_bins, Config.linear_bins, List.range_succ])
    (by norm_num)
    (by intro p hp; simp at hp; rw [hp]; norm_num)

/-- C1 amended: the minimal-index property holds for a single requested
percentile (and hence for each query's smallest percentile), measured
against the `needed` value the code actually computes in `f64` arithmetic
(`neededCount`, which captures the rounding of the `u128` to `f64` cast
and subnormal underflow of `p / 100.0`): with an unmutated store, a total
of at most `2^53`, and `p ≤ 100`, `percentiles [p]` returns the bucket at
the minimal index `i` whose cumulative count `0..=i` reaches that computed
`needed`, and `i` lies below `total_bins` (the bucket read is in bounds).
A later percentile resumes the walk one index past the previous answer,
so — as the counterexample shows — two equal requested percentiles can
receive buckets at different positions. -/
theorem percentiles_single_minimal_index (cfg : Config) (count : Nat → Nat)
    (total : Nat) (p : ℚ)
    (htot : total = sumCounts count cfg.total_bins)
    (hpos : 0 < total) (h53 : total ≤ 2 ^ 53) (hp : p ≤ 100) :
    ∃ i, i < cfg.total_bins ∧
      percentilesRun cfg count total [p] = .ok [(p, getBucket cfg count i)] ∧
      neededCount p total ≤ sumCounts count (i + 1) ∧
      ∀ j, j < i → sumCounts count (j + 1) < neededCount p total := by
  have hsort : List.mergeSort [p] (fun x y => decide (x ≤ y)) = [p] :=
    List.mergeSort_eq_self (List.sorted_singleton p)
  rw [percentilesRun, if_neg (by omega), hsort]
  have htb : 0 < cfg.total_bins := by
    by_contra hcon
    push_neg at hcon
    have h0 : cfg.total_bins = 0 := by omega
    rw [h0] at htot
    simp [sumCounts] at htot
    omega
  by_cases hfast : neededCount p total ≤ 0
  · refine ⟨0, htb, ?_, by omega, fun j hj => by omega⟩
    simp only [outerWalk, if_pos hfast]
    rfl
  · have hne : neededCount p total ≤ sumCounts count cfg.total_bins :=
      htot ▸ neededCount_le_total_of_le p total hp h53
    cases hw : innerWalk cfg count (neededCount p total) 0 0 0 with
    | exhausted mx' =>
      exact absurd hw (innerWalk_not_exhausted cfg count _ cfg.total_bins 0 0 0
        (by omega) rfl (by omega) hne mx')
    | found f hav' mx' =>
      obtain ⟨_, h2, h3, h4, h5⟩ := innerWalk_found_spec cfg count _ cfg.total_bins
        0 0 0 f hav' mx' (by omega) rfl hw
      refine ⟨f, h2, ?_, by omega, fun j hj => h5 j (Nat.zero_le j) hj⟩
      simp only [outerWalk, if_neg hfast, hw]
      rfl

/-- C1 amended witness: the store `[1, 0]` over layout `(0, 0, 1)` with the
percentile `50`; the minimal satisfying index is `0`. -/
theorem percentiles_single_minimal_index_witness :
    ∃ i, i < (⟨0, 0, 1⟩ : Config).total_bins ∧
        percentilesRun ⟨0, 0, 1⟩ (fun i => [1, 0].getD i 0) 1 [(50 : ℚ)]
          = .ok [((50 : ℚ), getBucket ⟨0, 0, 1⟩ (fun i => [1, 0].getD i 0) i)] ∧
        neededCount 50 1 ≤ sumCounts (fun i => [1, 0].getD i 0) (i + 1) ∧
        ∀ j, j < i → sumCounts (fun i => [1, 0].getD i 0) (j + 1) < neededCount 50 1 :=
  percentiles_single_minimal_index ⟨0, 0, 1⟩ (fun i => [1, 0].getD i 0) 1 50
    (by simp [sumCounts, Config.total_bins, Config.linear_bins, List.range_succ])
    (by norm_num) (by norm_num) (by norm_num)

/-- C1 counterexample: the store `[1, 0]` over layout `(0, 0, 1)` queried
for the percentiles `[50, 50]`. The first `50` is satisfied at index `0`
(bucket `{count 1, lower 0, upper 0}`), but the second, equal, percentile
is served by the fast path at the resumed walk position and receives the
bucket at index `1` (`{count 0, lower 1, upper 1}`) — equal requested
percentiles do not receive the bucket at the same index, and the second
bucket is not the one at the minimal satisfying index. -/
theorem percentiles_equal_duplicates_counterexample :
    Histogram.percentiles ⟨⟨0, 0, 1⟩, [1, 0]⟩ [50, 50]
        = Except.ok [(50, ⟨1, 0, 0⟩), (50, ⟨0, 1, 1⟩)] ∧
      (⟨1, 0, 0⟩ : Bucket) ≠ ⟨0, 1, 1⟩ := by
  have hsort : List.mergeSort [(50 : ℚ), 50] (fun x y => decide (x ≤ y)) = [50, 50] :=
    List.mergeSort_eq_self (by simp)
  have hneed : neededCount 50 1 = 1 := neededCount_50_1
  have hIW : innerWalk ⟨0, 0, 1⟩ (Histogram.get_count ⟨⟨0, 0, 1⟩, [1, 0]⟩) 1 0 0 0
      = .found 0 1 0 := by
    rw [innerWalk]
    norm_num [Config.total_bins, Config.linear_bins, Histogram.get_count]
  have hOW : outerWalk ⟨0, 0, 1⟩ (Histogram.get_count ⟨⟨0, 0, 1⟩, [1, 0]⟩) 1
      [50, 50] 0 0 0 []
      = ([(50, ⟨1, 0, 0⟩), (50, ⟨0, 1, 1⟩)], [], 0) := by
    norm_num [outerWalk, hneed, hIW, getBucket, Histogram.get_count,
      Config.index_to_lower_bound, Config.index_to_upper_bound, Config.linear_bins]
  constructor
  · rw [Histogram.percentiles,
      show Histogram.total_count ⟨⟨0, 0, 1⟩, [1, 0]⟩ = 1 from rfl,
      percentilesRun, if_neg (by norm_num), hsort, hOW]
    rfl
  · decide

/-- C3 amended: in the exclusive variant a single `add_at` call never
modifies any ring slot other than the one `refreshSlot` it copies into
(at most one slot per call, whatever the supplied instant); in the
atomic/shared variant this per-call guarantee holds for each CAS-winning
iteration (`snapshotStep`), but a `snapshot` call loops once per elapsed
tick and can refresh several slots in one call — see the
counterexample. -/
theorem window_advance_one_slot_frame :
    (∀ (h : SWHistogram) (instant value count j : Nat), j ≠ h.refreshSlot →
        ((h.add_at instant value count).1.snapshots)[j]? = h.snapshots[j]?) ∧
    (∀ (ah : ASWHistogram) (j : Nat), j ≠ ah.refreshSlot →
        (ah.snapshotStep.snapshots)[j]? = ah.snapshots[j]?) := by
  constructor
  · intro h instant value count j hj
    rw [SWHistogram.add_at]
    by_cases hfast : instant < h.tick_at
    · rw [if_pos hfast]
    · rw [if_neg hfast]
      exact List.getElem?_set_ne (Ne.symm hj)
  · intro ah j hj
    rw [ASWHistogram.snapshotStep]
    exact List.getElem?_set_ne (Ne.symm hj)

/-- C3 witness: a concrete exclusive window (slot 1 is about to be
refreshed) and a concrete atomic window; slot 0 is untouched in both. -/
theorem window_advance_one_slot_frame_witness :
    (((⟨⟨1000, 2000, 0, 0, 3⟩, 5000, [[0, 0], [1, 1], [2, 2]],
            ⟨⟨0, 0, 1⟩, [7, 9]⟩⟩ : SWHistogram).add_at 6000 0 1).1.snapshots)[0]?
        = ([[0, 0], [1, 1], [2, 2]] : List (List Nat))[0]? ∧
      ((⟨⟨1000, 2000, 0, 0, 3⟩, 5000, [[0, 0], [1, 1], [2, 2]],
            ⟨⟨0, 0, 1⟩, [7, 9]⟩⟩ : ASWHistogram).snapshotStep.snapshots)[0]?
        = ([[0, 0], [1, 1], [2, 2]] : List (List Nat))[0]? :=
  ⟨window_advance_one_slot_frame.1 ⟨⟨1000, 2000, 0, 0, 3⟩, 5000, [[0, 0], [1, 1], [2, 2]],
      ⟨⟨0, 0, 1⟩, [7, 9]⟩⟩ 6000 0 1 0 (by decide),
   window_advance_one_slot_frame.2 ⟨⟨1000, 2000, 0, 0, 3⟩, 5000, [[0, 0], [1, 1], [2, 2]],
      ⟨⟨0, 0, 1⟩, [7, 9]⟩⟩ 0 (by decide)⟩

/-- C3 counterexample: an atomic sliding window with resolution 1000 ns,
3 ring slots, `tick_at = 5000` and live counters `[7, 9]`. One single
`snapshot` call with an instant two ticks past `tick_at` (6000) refreshes
ring slots 1 and 2 — both change from their previous published values —
contradicting the claim that a single call refreshes at most one ring
slot. -/
theorem atomic_snapshot_two_slots_counterexample :
    (ASWHistogram.snapshot ⟨⟨1000, 2000, 0, 0, 3⟩, 5000, [[0, 0], [1, 1], [2, 2]],
          ⟨⟨0, 0, 1⟩, [7, 9]⟩⟩ 6000).snapshots
        = [[0, 0], [7, 9], [7, 9]] ∧
      ([1, 1] : List Nat) ≠ [7, 9] ∧ ([2, 2] : List Nat) ≠ [7, 9] := by
  refine ⟨?_, by decide, by decide⟩
  rw [ASWHistogram.snapshot]
  norm_num [ASWHistogram.snapshotStep, Common.range, Common.max_idx]
  rw [ASWHistogram.snapshot]
  norm_num [ASWHistogram.snapshotStep, Common.range, Common.max_idx]
  rw [ASWHistogram.snapshot]
  norm_num

/-- C8: a sliding window with resolution one second and 60 requested
slices (so 61 ring slots and a 60 s span), whose tick origin is `T`:
`range(T, T+60s) = (0, 60)`; `range(T, T+61s) = (0, 60)` (a request longer
than the retained history clamps); and `range(T, e)` for any `e < T`
returns the zero-width `(0, 0)` rather than an error. The first conjunct
shows `Common::new` builds exactly this window state. -/
theorem range_one_second_sixty_slices (T s : Nat) :
    Common.new 0 7 64 (10 ^ 9) 60 s (T + 60 * 10 ^ 9)
        = PanicOr.value (Except.ok ⟨10 ^ 9, 60 * 10 ^ 9, s, T, 61⟩) ∧
      Common.range ⟨10 ^ 9, 60 * 10 ^ 9, s, T, 61⟩ T (T + 60 * 10 ^ 9) = (0, 60) ∧
      Common.range ⟨10 ^ 9, 60 * 10 ^ 9, s, T, 61⟩ T (T + 61 * 10 ^ 9) = (0, 60) ∧
      ∀ e, e < T → Common.range ⟨10 ^ 9, 60 * 10 ^ 9, s, T, 61⟩ T e = (0, 0) := by
  refine ⟨?_, ?_, ?_, ?_⟩
  · rw [Common.new, if_neg (by norm_num), if_neg (by norm_num), Config.new,
      if_neg (by norm_num), if_neg (by norm_num)]
    norm_num [Common.mk.injEq]
  · rw [Common.range]
    norm_num [Common.max_idx]
  · rw [Common.range]
    norm_num [Common.max_idx]
  · intro e he
    rw [Common.range]
    norm_num [he, Nat.not_lt.mpr (Nat.le_of_lt he)]

/-- C8 witness: tick origin `10^10` ns; a reversed range collapses to
`(0, 0)` and the full-span range gives `(0, 60)`. -/
theorem range_one_second_sixty_slices_witness :
    Common.range ⟨10 ^ 9, 60 * 10 ^ 9, 0, 10 ^ 10, 61⟩ (10 ^ 10) (9 * 10 ^ 9) = (0, 0) ∧
      Common.range ⟨10 ^ 9, 60 * 10 ^ 9, 0, 10 ^ 10, 61⟩ (10 ^ 10)
          (10 ^ 10 + 60 * 10 ^ 9) = (0, 60) :=
  ⟨(range_one_second_sixty_slices (10 ^ 10) 0).2.2.2 (9 * 10 ^ 9) (by norm_num),
   (range_one_second_sixty_slices (10 ^ 10) 0).2.1⟩

/-- C9 counterexample: a resolution of 999 ns (shorter than one
microsecond) makes `Common::new` abort on its `assert!` — the model
returns `panicked`, not an error result, so construction does not "return
an error result" as the claim states. -/
theorem common_new_small_resolution_panics_counterexample :
    Common.new 0 7 64 999 60 0 (10 ^ 12) = PanicOr.panicked := by
  rw [Common.new, if_neg (by norm_num), if_pos (by norm_num)]

/-- C9 amended: constructing a sliding-window histogram with a resolution
shorter than one microsecond, or wider than `u64` in nanoseconds, aborts
by panic (the `assert!` calls in `Common::new`, which run before any
counter allocation in either window constructor) — it never succeeds, but
it panics rather than returning an error result. -/
theorem sliding_window_resolution_assert_panics
    (a b n resolution slices nu ni : Nat)
    (h : resolution < 1000 ∨ 2 ^ 64 - 1 < resolution) :
    Common.new a b n resolution slices nu ni = .panicked ∧
      SWHistogram.new a b n resolution slices nu ni = .panicked ∧
      ASWHistogram.new a b n resolution slices nu ni = .panicked := by
  have hc : Common.new a b n resolution slices nu ni = .panicked := by
    rw [Common.new]
    rcases h with h | h
    · by_cases h64 : 2 ^ 64 - 1 < resolution
      · rw [if_pos h64]
      · rw [if_neg h64, if_pos h]
    · rw [if_pos h]
  refine ⟨hc, ?_, ?_⟩
  · rw [SWHistogram.new, hc]
  · rw [ASWHistogram.new, hc]

/-- C9 witness: resolution 999 ns with layout `(0, 7, 64)` and 60
slices. -/
theorem sliding_window_resolution_assert_panics_witness :
    Common.new 0 7 64 999 60 0 0 = .panicked ∧
      SWHistogram.new 0 7 64 999 60 0 0 = .panicked ∧
      ASWHistogram.new 0 7 64 999 60 0 0 = .panicked :=
  sliding_window_resolution_assert_panics 0 7 64 999 60 0 0 (Or.inl (by norm_num))

/-- C10: for every pair of instants, whatever their order or distance from
the window, `range` returns slot indices both strictly below `num_slices`
(the ring length, positive for every constructed window since
`num_slices = slices + 1`), so `distribution_between` /
`percentiles_between` never index a ring slot out of bounds on account of
the requested time range. -/
theorem range_indices_lt_num_slices (c : Common) (s e : Nat)
    (h : 0 < c.num_slices) :
    (c.range s e).1 < c.num_slices ∧ (c.range s e).2 < c.num_slices := by
  rw [Common.range]
  exact ⟨Nat.mod_lt _ h, Nat.mod_lt _ h⟩

/-- C10 witness: a one-second, three-slot window queried with a reversed
pair of instants far from the origin. -/
theorem range_indices_lt_num_slices_witness :
    (Common.range ⟨10 ^ 9, 2 * 10 ^ 9, 0, 0, 3⟩ (5 * 10 ^ 9) (10 ^ 9)).1 < 3 ∧
      (Common.range ⟨10 ^ 9, 2 * 10 ^ 9, 0, 0, 3⟩ (5 * 10 ^ 9) (10 ^ 9)).2 < 3 :=
  range_indices_lt_num_slices ⟨10 ^ 9, 2 * 10 ^ 9, 0, 0, 3⟩ (5 * 10 ^ 9) (10 ^ 9)
    (by norm_num)
